import Mathlib

/-!
Verification of the file-renamer module (src/App.tsx).

The embedding models the App component's state and the handlers that carry
the logic the specification describes: the naming computation performed by
the recompute effect, `handleFiles` (ingestion), `handleDateToggleChange`,
`handleIndividualNameChange` / `handleIndividualDateChange`,
`handleSaveAll` (export scheduling) and `handleClear`.

JavaScript strings are modelled as Lean `String`; string helpers used by
the source (`trim`, the global dash-replace, `split(".")`, `join(".")`,
`startsWith`) are embedded below with the semantics of their JS
counterparts on the inputs that occur here.  Object URLs returned by
`URL.createObjectURL` are modelled as natural numbers drawn from a counter;
`URL.revokeObjectURL` appends the handle to a `released` log.  The React
cleanup effect at App.tsx lines 53-61 is keyed on the `renamedFiles` value,
so its cleanup (which revokes every preview URL of the closed-over array)
runs on every replacement of that array; the model therefore appends the
previous array's preview handles to `released` whenever `renamedFiles` is
replaced.
-/

/-- Whitespace characters removed by JavaScript `String.prototype.trim`
(ASCII whitespace plus no-break space; the claims only exercise ASCII). -/
def isJsSpace (c : Char) : Bool :=
  c = ' ' || c = '\t' || c = '\n' || c = '\r' || c = '\x0b' || c = '\x0c' || c = ' '

/-- JavaScript `s.trim()`: strip leading and trailing whitespace. -/
def jsTrim (s : String) : String :=
  String.mk (((s.toList.dropWhile isJsSpace).reverse.dropWhile isJsSpace).reverse)

/-- The global dash-replace applied to the date string
(App.tsx line 72, `dateForCalc.replace` with the global dash regex):
remove every dash. -/
def stripDashes (s : String) : String :=
  String.mk (s.toList.filter (fun c => c != '-'))

/-- JavaScript `name.split(".")` (App.tsx line 87), on the character list:
`splitDot l acc` splits `l` at every dot, `acc` holding the (reversed)
characters of the chunk currently being read. -/
def splitDot : List Char → List Char → List (List Char)
  | [], acc => [acc.reverse]
  | c :: rest, acc =>
    if c = '.' then acc.reverse :: splitDot rest [] else splitDot rest (c :: acc)

/-- JavaScript `parts.join(".")` (App.tsx line 90), on character lists. -/
def joinDot : List (List Char) → List Char
  | [] => []
  | [x] => x
  | x :: y :: ys => x ++ '.' :: joinDot (y :: ys)

/-- The naming computation: body of the per-entry map inside the recompute
effect (App.tsx lines 67-97).  `code` is the trimmed codename with the
CODENAME fallback (line 67, `codename.trim() || 'CODENAME'`); `date` is the
dash-stripped date (line 72); then the `switch (format)` on lines 76-97. -/
def compute (format codename dateForCalc name : String) : String :=
  let code := if jsTrim codename = "" then "CODENAME" else jsTrim codename
  let date := stripDashes dateForCalc
  if format = "date_codename_name" then date ++ "_" ++ code ++ "_" ++ name
  else if format = "date_name" then date ++ "_" ++ name
  else if format = "codename_date_name" then code ++ "_" ++ date ++ "_" ++ name
  else if format = "name_date" then
    let parts := splitDot name.toList []
    if parts.length > 1 then
      String.mk (joinDot parts.dropLast) ++ "_" ++ date ++ "." ++
        String.mk (parts.getLastD [])
    else name ++ "_" ++ date
  else date ++ "_" ++ name

/-- Gregorian civil date from a count of days since 1970-01-01
(the UTC date arithmetic behind `new Date(ms).toISOString()`).
Returns (year, month, day). -/
def civilFromDays (days : Nat) : Nat × Nat × Nat :=
  let z := days + 719468
  let era := z / 146097
  let doe := z % 146097
  let yoe := (doe - doe / 1460 + doe / 36524 - doe / 146096) / 365
  let y := yoe + era * 400
  let doy := doe - (365 * yoe + yoe / 4 - yoe / 100)
  let mp := (5 * doy + 2) / 153
  let d := doy - (153 * mp + 2) / 5 + 1
  let m := if mp < 10 then mp + 3 else mp - 9
  (if m ≤ 2 then y + 1 else y, m, d)

/-- Zero-pad a number below 100 to two digits. -/
def pad2 (n : Nat) : String :=
  if n < 10 then "0" ++ toString n else toString n

/-- JavaScript `new Date(ms).toISOString().split('T')[0]` (App.tsx lines
113-114 and 119): the UTC calendar date of an epoch-milliseconds timestamp,
rendered `YYYY-MM-DD`.  Timestamps are modelled as non-negative. -/
def toISODate (ms : Nat) : String :=
  let ymd := civilFromDays (ms / 86400000)
  toString ymd.1 ++ "-" ++ pad2 ymd.2.1 ++ "-" ++ pad2 ymd.2.2

/-- The data a `File` object exposes to this module: name, size, MIME type,
last-modified epoch-milliseconds timestamp. -/
structure JsFile where
  name : String
  size : Nat
  type : String
  lastModified : Nat
  deriving Repr, DecidableEq, BEq

/-- One staged entry, the `RenamedFile` interface of App.tsx lines 36-41.
The optional preview URL is a handle number (see module comment). -/
structure RenamedFile where
  originalFile : JsFile
  newName : String
  dateString : String
  previewUrl : Option Nat
  deriving Repr, DecidableEq, BEq

/-- The App component's state cells (App.tsx lines 44-49) together with the
model's bookkeeping for object URLs: `nextUrl` is the allocation counter
and `released` the log of revoked handles. -/
structure AppState where
  renamedFiles : List RenamedFile
  codename : String
  format : String
  dateString : String
  useSameDateForAll : Bool
  nextUrl : Nat
  released : List Nat
  deriving Repr, DecidableEq, BEq

/-- Initial state (App.tsx lines 44-49); `today` stands for
`new Date().toISOString().split('T')[0]`. -/
def initState (today : String) : AppState :=
  { renamedFiles := [], codename := "PROJECT", format := "date_codename_name",
    dateString := today, useSameDateForAll := true, nextUrl := 0, released := [] }

/-- Preview handles of a list of entries, in order. -/
def previewUrls (files : List RenamedFile) : List Nat :=
  files.filterMap (fun rf => rf.previewUrl)

/-- Replacing the `renamedFiles` array: the new value is stored and the
cleanup of the Object-URL effect (App.tsx lines 53-61), which is keyed on
`[renamedFiles]`, revokes every preview URL of the previous array. -/
def setRenamedFiles (s : AppState) (new : List RenamedFile) : AppState :=
  { s with renamedFiles := new, released := s.released ++ previewUrls s.renamedFiles }

/-- The per-entry transform of the recompute effect (App.tsx lines 70-100):
pick the effective date by the toggle, compute the new name, keep every
other field. -/
def recomputeEntry (s : AppState) (file : RenamedFile) : RenamedFile :=
  let dateForCalc := if s.useSameDateForAll then s.dateString else file.dateString
  { file with newName := compute s.format s.codename dateForCalc file.originalFile.name }

/-- The recompute effect (App.tsx lines 64-102): early return on an empty
collection, else map every entry through the naming computation. -/
def recomputeNames (s : AppState) : AppState :=
  if s.renamedFiles.length = 0 then s
  else setRenamedFiles s (s.renamedFiles.map (recomputeEntry s))

/-- JavaScript `s.startsWith(pre)` (App.tsx line 123), as a character-list
comparison. -/
def jsStartsWith (s pre : String) : Bool :=
  pre.toList.isPrefixOf s.toList

/-- The entry construction loop of `handleFiles` (App.tsx lines 118-126):
build one entry per raw file, allocating a preview URL when the MIME type
starts with `image/`, threading the URL counter left to right.  Returns
the new entries and the updated counter. -/
def mkEntries (useSame : Bool) (globalDate : String) :
    List JsFile → Nat → List RenamedFile × Nat
  | [], n => ([], n)
  | f :: rest, n =>
    let url : Option Nat × Nat :=
      if jsStartsWith f.type "image/" then (some n, n + 1) else (none, n)
    let tail := mkEntries useSame globalDate rest url.2
    let dt := if useSame then globalDate else toISODate f.lastModified
    ({ originalFile := f, newName := "", dateString := dt, previewUrl := url.1 } :: tail.1,
     tail.2)

/-- `handleFiles` (App.tsx lines 104-129): no-op on an empty selection;
otherwise, when the collection is empty, seed the global date from the
first file's last-modified timestamp, then append one entry per file. -/
def handleFiles (s : AppState) (selectedFiles : List JsFile) : AppState :=
  match selectedFiles with
  | [] => s
  | firstFile :: _ =>
    let currentGlobalDate :=
      if s.renamedFiles.length = 0 then toISODate firstFile.lastModified
      else s.dateString
    let added := mkEntries s.useSameDateForAll currentGlobalDate selectedFiles s.nextUrl
    { setRenamedFiles s (s.renamedFiles ++ added.1) with
        dateString := currentGlobalDate, nextUrl := added.2 }

/-- Overwrite the element at `index` (in range) of an entry list, as
`updated[index] = ...` does on a copied array. -/
def updateAt (index : Nat) (f : RenamedFile → RenamedFile) :
    List RenamedFile → List RenamedFile
  | [] => []
  | x :: xs =>
    match index with
    | 0 => f x :: xs
    | Nat.succ n => x :: updateAt n f xs

/-- `handleIndividualNameChange` (App.tsx lines 157-163): overwrite one
entry's `newName` (in-range indices; the UI only passes list indices). -/
def handleIndividualNameChange (s : AppState) (index : Nat) (newName : String) :
    AppState :=
  setRenamedFiles s (updateAt index (fun rf => { rf with newName := newName }) s.renamedFiles)

/-- `handleIndividualDateChange` (App.tsx lines 165-171): overwrite one
entry's `dateString`. -/
def handleIndividualDateChange (s : AppState) (index : Nat) (newDate : String) :
    AppState :=
  setRenamedFiles s (updateAt index (fun rf => { rf with dateString := newDate }) s.renamedFiles)

/-- `handleDateToggleChange` (App.tsx lines 173-185): store the new toggle
value and sweep every entry's date — to the global date when switching to
global mode, to the file's own last-modified date when switching to
per-file mode. -/
def handleDateToggleChange (s : AppState) (isChecked : Bool) : AppState :=
  setRenamedFiles { s with useSameDateForAll := isChecked }
    (s.renamedFiles.map (fun rf =>
      let dt := if isChecked then s.dateString else toISODate rf.originalFile.lastModified
      { rf with dateString := dt }))

/-- `handleClear` (App.tsx lines 205-210): empty the collection (the
cleanup effect then revokes every outstanding preview URL). -/
def handleClear (s : AppState) : AppState :=
  setRenamedFiles s []

/-- Unmount of the component: the final cleanup of the Object-URL effect
revokes every preview URL of the current array. -/
def teardown (s : AppState) : AppState :=
  { s with renamedFiles := [], released := s.released ++ previewUrls s.renamedFiles }

/-- `handleSaveAll`'s scheduling loop from position `index` (App.tsx lines
187-203): entries whose trimmed name is empty are skipped (the
`originalFile` presence test never fails: every entry holds its file);
every other entry gets one download action at delay `index * 300`
milliseconds carrying the trimmed name (line 196,
`a.download = renamedFile.newName.trim()`). -/
def saveAllFrom (index : Nat) : List RenamedFile → List (Nat × String)
  | [] => []
  | rf :: rest =>
    if jsTrim rf.newName = "" then saveAllFrom (index + 1) rest
    else (index * 300, jsTrim rf.newName) :: saveAllFrom (index + 1) rest

/-- `handleSaveAll` (App.tsx lines 187-203) as the list of scheduled
download actions, each a pair of delay in milliseconds and download
filename.  It mutates no state cell. -/
def handleSaveAll (files : List RenamedFile) : List (Nat × String) :=
  saveAllFrom 0 files

/-- The dependency tuple of the recompute effect (App.tsx line 102):
`[format, codename, dateString, useSameDateForAll, renamedFiles.length]`.
The effect re-runs exactly when this tuple changes. -/
def recomputeDeps (s : AppState) : String × String × String × Bool × Nat :=
  (s.format, s.codename, s.dateString, s.useSameDateForAll, s.renamedFiles.length)

/-- A concrete non-image file used to exercise the operations. -/
def fileA : JsFile :=
  { name := "report.final.pdf", size := 10, type := "application/pdf",
    lastModified := 1709600000000 }

/-- A concrete image file: its ingestion allocates a preview handle. -/
def imgFile : JsFile :=
  { name := "photo.png", size := 4, type := "image/png", lastModified := 0 }

/-- A one-file collection reached by ingesting `fileA` into the empty
initial state. -/
def stateOne : AppState := handleFiles (initState "2024-09-01") [fileA]

/-- The state after ingesting one image into an empty collection and the
recompute sweep that the ingestion triggers (the `renamedFiles.length`
dependency changed). -/
def bugState : AppState := recomputeNames (handleFiles (initState "2024-01-01") [imgFile])

/-- An entry whose user-edited name carries surrounding whitespace. -/
def entryWs : RenamedFile :=
  { originalFile := fileA, newName := " x ", dateString := "2024-01-01", previewUrl := none }

/-- An entry with a non-blank name, for export-scheduling runs. -/
def entryA : RenamedFile :=
  { originalFile := fileA, newName := "a.pdf", dateString := "2024-01-01", previewUrl := none }

/-- An entry whose name trims to empty: export skips it. -/
def entryBlank : RenamedFile :=
  { originalFile := fileA, newName := "  ", dateString := "2024-01-01", previewUrl := none }

/-- Another entry with a non-blank name. -/
def entryB : RenamedFile :=
  { originalFile := imgFile, newName := "b.png", dateString := "2024-01-01", previewUrl := none }

/-! ## Helper lemmas about the split and join embeddings -/

theorem splitDot_ne_nil (l acc : List Char) : splitDot l acc ≠ [] := by
  induction l generalizing acc with
  | nil => simp [splitDot]
  | cons c rest ih =>
    by_cases h : c = '.'
    · simp [splitDot, h]
    · simpa [splitDot, h] using ih (c :: acc)

theorem joinDot_cons (x : List Char) (xs : List (List Char)) (h : xs ≠ []) :
    joinDot (x :: xs) = x ++ '.' :: joinDot xs := by
  cases xs with
  | nil => exact absurd rfl h
  | cons y ys => rfl

theorem splitDot_join (l acc : List Char) :
    joinDot (splitDot l acc) = acc.reverse ++ l := by
  induction l generalizing acc with
  | nil => simp [splitDot, joinDot]
  | cons c rest ih =>
    by_cases h : c = '.'
    · rw [splitDot, if_pos h, joinDot_cons _ _ (splitDot_ne_nil rest []), ih []]
      simp [h]
    · rw [splitDot, if_neg h, ih (c :: acc)]
      simp

theorem splitDot_getLastD_no_dot (l acc : List Char) (h : '.' ∉ acc) :
    '.' ∉ (splitDot l acc).getLastD [] := by
  induction l generalizing acc with
  | nil => simpa [splitDot] using h
  | cons c rest ih =>
    by_cases hc : c = '.'
    · rw [splitDot, if_pos hc]
      obtain ⟨y, ys, hy⟩ := List.exists_cons_of_ne_nil (splitDot_ne_nil rest [])
      have := ih [] (by simp)
      rw [hy] at this ⊢
      cases ys with
      | nil => simpa using this
      | cons z zs => simpa using this
    · rw [splitDot, if_neg hc]
      exact ih (c :: acc) (by simp [h, Ne.symm hc])

theorem splitDot_length_gt_one (l acc : List Char) (h : '.' ∈ l) :
    1 < (splitDot l acc).length := by
  induction l generalizing acc with
  | nil => simp at h
  | cons c rest ih =>
    by_cases hc : c = '.'
    · rw [splitDot, if_pos hc]
      have hne := splitDot_ne_nil rest []
      have : 0 < (splitDot rest []).length := List.length_pos.mpr hne
      simpa using this
    · have hrest : '.' ∈ rest := by
        rcases List.mem_cons.mp h with h1 | h1
        · exact absurd h1.symm hc
        · exact h1
      rw [splitDot, if_neg hc]
      exact ih (c :: acc) hrest

theorem splitDot_no_dot (l acc : List Char) (h : '.' ∉ l) :
    splitDot l acc = [acc.reverse ++ l] := by
  induction l generalizing acc with
  | nil => simp [splitDot]
  | cons c rest ih =>
    have hc : c ≠ '.' := fun hh => h (hh ▸ List.mem_cons_self c rest)
    rw [splitDot, if_neg hc, ih (c :: acc) (fun hh => h (List.mem_cons_of_mem c hh))]
    simp

theorem joinDot_dropLast_getLastD (parts : List (List Char)) (h : 1 < parts.length) :
    joinDot parts = joinDot parts.dropLast ++ '.' :: parts.getLastD [] := by
  induction parts with
  | nil => simp at h
  | cons x xs ih =>
    cases xs with
    | nil => simp at h
    | cons y ys =>
      cases ys with
      | nil => simp [joinDot]
      | cons z zs =>
        have hlen : 1 < (y :: z :: zs).length := by simp
        have hdl : (z :: zs).dropLast.length + 1 = (y :: z :: zs).dropLast.length := by
          simp
        rw [joinDot_cons x (y :: z :: zs) (by simp), ih hlen]
        have hnd : (y :: z :: zs).dropLast ≠ [] := by simp
        rw [show (x :: y :: z :: zs).dropLast = x :: (y :: z :: zs).dropLast by simp,
          joinDot_cons x _ hnd]
        have hgl : (x :: y :: z :: zs).getLastD [] = (y :: z :: zs).getLastD [] := by
          simp [List.getLastD_cons]
        rw [hgl]
        simp

theorem updateAt_length (i : Nat) (f : RenamedFile → RenamedFile) (l : List RenamedFile) :
    (updateAt i f l).length = l.length := by
  induction l generalizing i with
  | nil => simp [updateAt]
  | cons x xs ih =>
    cases i with
    | zero => simp [updateAt]
    | succ n => simpa [updateAt] using ih n

theorem updateAt_get?_eq (i : Nat) (f : RenamedFile → RenamedFile) (l : List RenamedFile) :
    (updateAt i f l).get? i = (l.get? i).map f := by
  induction l generalizing i with
  | nil => simp [updateAt]
  | cons x xs ih =>
    cases i with
    | zero => simp [updateAt]
    | succ n => simpa [updateAt] using ih n

theorem updateAt_get?_ne (i : Nat) (f : RenamedFile → RenamedFile) (l : List RenamedFile)
    (j : Nat) (h : j ≠ i) : (updateAt i f l).get? j = l.get? j := by
  induction l generalizing i j with
  | nil => simp [updateAt]
  | cons x xs ih =>
    cases i with
    | zero =>
      cases j with
      | zero => exact absurd rfl h
      | succ m => simp [updateAt]
    | succ n =>
      cases j with
      | zero => simp [updateAt]
      | succ m => simpa [updateAt] using ih n m (fun hh => h (by simp [hh]))

theorem saveAllFrom_mem_of_get? (files : List RenamedFile) (k i : Nat) (e : RenamedFile)
    (hget : files.get? i = some e) (hne : jsTrim e.newName ≠ "") :
    ((k + i) * 300, jsTrim e.newName) ∈ saveAllFrom k files := by
  induction files generalizing k i with
  | nil => simp at hget
  | cons rf rest ih =>
    cases i with
    | zero =>
      have he : rf = e := by simpa using hget
      subst he
      rw [saveAllFrom, if_neg hne]
      simp
    | succ n =>
      have hget2 : rest.get? n = some e := by simpa using hget
      have hmem := ih (k + 1) n hget2
      have harith : k + 1 + n = k + (n + 1) := by omega
      rw [harith] at hmem
      rw [saveAllFrom]
      by_cases hb : jsTrim rf.newName = ""
      · rw [if_pos hb]; exact hmem
      · rw [if_neg hb]; exact List.mem_cons_of_mem _ hmem

theorem saveAllFrom_mem_spec (files : List RenamedFile) (k : Nat) (p : Nat × String)
    (hp : p ∈ saveAllFrom k files) :
    ∃ i e, files.get? i = some e ∧ jsTrim e.newName ≠ "" ∧
      p.1 = (k + i) * 300 ∧ p.2 = jsTrim e.newName := by
  induction files generalizing k with
  | nil => simp [saveAllFrom] at hp
  | cons rf rest ih =>
    rw [saveAllFrom] at hp
    by_cases hb : jsTrim rf.newName = ""
    · rw [if_pos hb] at hp
      obtain ⟨i, e, h1, h2, h3, h4⟩ := ih (k + 1) hp
      exact ⟨i + 1, e, by simpa using h1, h2, by omega, h4⟩
    · rw [if_neg hb] at hp
      rcases List.mem_cons.mp hp with h | h
      · exact ⟨0, rf, by simp, hb, by simp [h], by simp [h]⟩
      · obtain ⟨i, e, h1, h2, h3, h4⟩ := ih (k + 1) h
        exact ⟨i + 1, e, by simpa using h1, h2, by omega, h4⟩

theorem saveAllFrom_delay_lb (files : List RenamedFile) (k : Nat) (p : Nat × String)
    (hp : p ∈ saveAllFrom k files) : k * 300 ≤ p.1 := by
  induction files generalizing k with
  | nil => simp [saveAllFrom] at hp
  | cons rf rest ih =>
    rw [saveAllFrom] at hp
    by_cases hb : jsTrim rf.newName = ""
    · rw [if_pos hb] at hp
      have := ih (k + 1) hp
      omega
    · rw [if_neg hb] at hp
      rcases List.mem_cons.mp hp with h | h
      · simp [h]
      · have := ih (k + 1) h
        omega

theorem saveAllFrom_delays_increasing (files : List RenamedFile) (k : Nat) :
    List.Pairwise (fun p q => p.1 < q.1) (saveAllFrom k files) := by
  induction files generalizing k with
  | nil => simp [saveAllFrom]
  | cons rf rest ih =>
    rw [saveAllFrom]
    by_cases hb : jsTrim rf.newName = ""
    · rw [if_pos hb]; exact ih (k + 1)
    · rw [if_neg hb]
      refine List.Pairwise.cons (fun q hq => ?_) (ih (k + 1))
      have := saveAllFrom_delay_lb rest (k + 1) q hq
      simp only
      omega

/-! ## Claim theorems -/

/-- C1 (counterexample): the naming computation substitutes the TRIMMED
codename, not the codename as given — for the codename " DRAFT " (whose
trim "DRAFT" is non-empty, so it is in the claim's scope) the output is
"20240305_DRAFT_photo.png", which differs from the claimed template output
built from the raw codename, "20240305_ DRAFT _photo.png". -/
theorem C1_raw_codename_counterexample :
    jsTrim " DRAFT " = "DRAFT" ∧
    compute "date_codename_name" " DRAFT " "2024-03-05" "photo.png" =
      "20240305_DRAFT_photo.png" ∧
    "20240305_DRAFT_photo.png" ≠ "20240305_ DRAFT _photo.png" := by
  refine ⟨by decide, by decide, by decide⟩

/-- C1 (amended): for the three rules date_codename_name, date_name and
codename_date_name, every codename whose trim is non-empty, every date
string and every original filename, the computation strips the dashes from
the date and returns the template output with the TRIMMED codename
substituted; in particular
compute(date_codename_name, "DRAFT", "2024-03-05", "photo.png") =
"20240305_DRAFT_photo.png". -/
theorem C1_templates_trimmed_codename :
    (∀ codename : String, jsTrim codename ≠ "" → ∀ ds name : String,
      compute "date_codename_name" codename ds name =
        stripDashes ds ++ "_" ++ jsTrim codename ++ "_" ++ name ∧
      compute "date_name" codename ds name = stripDashes ds ++ "_" ++ name ∧
      compute "codename_date_name" codename ds name =
        jsTrim codename ++ "_" ++ stripDashes ds ++ "_" ++ name) ∧
    compute "date_codename_name" "DRAFT" "2024-03-05" "photo.png" =
      "20240305_DRAFT_photo.png" := by
  refine ⟨fun codename hc ds name => ⟨?_, ?_, ?_⟩, by decide⟩ <;> simp [compute, hc]

/-- C1 witness: the amended theorem applied at codename "DRAFT" (non-empty
trim), date "2024-03-05" and filename "photo.png". -/
theorem C1_templates_trimmed_codename_witness :
    compute "date_codename_name" "DRAFT" "2024-03-05" "photo.png" =
      stripDashes "2024-03-05" ++ "_" ++ jsTrim "DRAFT" ++ "_" ++ "photo.png" :=
  (C1_templates_trimmed_codename.1 "DRAFT" (by decide) "2024-03-05" "photo.png").1

/-- C7: the naming computation is total and applies silent fallbacks: a
rule id outside the four known ids produces the date_name template output,
and a codename with empty trim is replaced by the literal CODENAME
(the output equals the one computed with codename "CODENAME"). -/
theorem C7_silent_fallbacks :
    (∀ format codename ds name : String,
      format ∉ (["date_codename_name", "date_name", "codename_date_name",
        "name_date"] : List String) →
      compute format codename ds name = stripDashes ds ++ "_" ++ name) ∧
    (∀ format codename ds name : String, jsTrim codename = "" →
      compute format codename ds name = compute format "CODENAME" ds name) := by
  constructor
  · intro format codename ds name h
    simp only [List.mem_cons, List.not_mem_nil, or_false, not_or] at h
    obtain ⟨h1, h2, h3, h4⟩ := h
    simp [compute, h1, h2, h3, h4]
  · intro format codename ds name h
    have hcn : jsTrim "CODENAME" = "CODENAME" := by decide
    simp [compute, h, hcn]

/-- C7 witness: the unknown rule id "mystery_rule" falls back to the
date_name template, and the blank codename "  " is replaced by CODENAME. -/
theorem C7_silent_fallbacks_witness :
    compute "mystery_rule" "X" "2024-03-05" "a.txt" =
      stripDashes "2024-03-05" ++ "_" ++ "a.txt" ∧
    compute "date_codename_name" "  " "2024-03-05" "a.txt" =
      compute "date_codename_name" "CODENAME" "2024-03-05" "a.txt" :=
  ⟨C7_silent_fallbacks.1 "mystery_rule" "X" "2024-03-05" "a.txt" (by decide),
   C7_silent_fallbacks.2 "date_codename_name" "  " "2024-03-05" "a.txt" (by decide)⟩

/-- C2 (counterexample): the code splits on the dot even when the dot is
the sole character of the name — ".".split(".") is ["", ""], so for name
"." with date "2024-01-02" the output is "_20240102.", which is the split
template with empty stem and empty extension and differs from the unsplit
output "._20240102"; the claim's only-if (no split when the dot is the
sole character) is therefore false at name ".". -/
theorem C2_sole_dot_counterexample :
    compute "name_date" "X" "2024-01-02" "." = "_20240102." ∧
    "_20240102." = "" ++ "_" ++ stripDashes "2024-01-02" ++ "." ++ "" ∧
    ("." : String) = "" ++ "." ++ "" ∧
    "_20240102." ≠ "._20240102" := by
  refine ⟨by decide, by decide, by decide, by decide⟩

/-- C2 (amended): under the name_date rule, a filename containing at least
one dot — including when the dot is the sole character of the name — is
split on the LAST dot: the output is stem_date.ext where the extension
contains no dot (so it is the substring after the last dot) and
stem-dot-ext reassembles the original name; a filename with no dot yields
originalName_date with no extension re-appended.  Concretely,
"report.final.pdf" with date "2024-01-02" yields "report.final_20240102.pdf"
and "README" yields "README_20240102". -/
theorem C2_name_date_split :
    (∀ codename ds name : String, '.' ∈ name.toList →
      ∃ stem ext : String, name = stem ++ "." ++ ext ∧ '.' ∉ ext.toList ∧
        compute "name_date" codename ds name =
          stem ++ "_" ++ stripDashes ds ++ "." ++ ext) ∧
    (∀ codename ds name : String, '.' ∉ name.toList →
      compute "name_date" codename ds name = name ++ "_" ++ stripDashes ds) ∧
    compute "name_date" "X" "2024-01-02" "report.final.pdf" =
      "report.final_20240102.pdf" ∧
    compute "name_date" "X" "2024-01-02" "README" = "README_20240102" := by
  refine ⟨?_, ?_, by decide, by decide⟩
  · intro codename ds name hdot
    have hlen : 1 < (splitDot name.toList []).length :=
      splitDot_length_gt_one name.toList [] hdot
    refine ⟨String.mk (joinDot (splitDot name.toList []).dropLast),
      String.mk ((splitDot name.toList []).getLastD []), ?_, ?_, ?_⟩
    · apply String.ext
      have hjoin : joinDot (splitDot name.toList []) = name.toList := by
        simpa using splitDot_join name.toList []
      have hsplit := joinDot_dropLast_getLastD (splitDot name.toList []) hlen
      rw [hsplit] at hjoin
      simpa [String.data_append] using hjoin.symm
    · exact splitDot_getLastD_no_dot name.toList [] (by simp)
    · have hlenD : 1 < (splitDot name.data []).length := hlen
      simp [compute, hlenD]
  · intro codename ds name hdot
    have hparts : splitDot name.toList [] = [name.toList] := by
      simpa using splitDot_no_dot name.toList [] hdot
    have hpartsD : splitDot name.data [] = [name.data] := hparts
    simp [compute, hpartsD]

/-- C2 witness: the split clause applied at "report.final.pdf" (which
contains a dot), codename "X" and date "2024-01-02". -/
theorem C2_name_date_split_witness :
    ∃ stem ext : String, "report.final.pdf" = stem ++ "." ++ ext ∧
      '.' ∉ ext.toList ∧
      compute "name_date" "X" "2024-01-02" "report.final.pdf" =
        stem ++ "_" ++ stripDashes "2024-01-02" ++ "." ++ ext :=
  C2_name_date_split.1 "X" "2024-01-02" "report.final.pdf" (by decide)

/-- C3: in global mode, ingesting a non-empty batch into an EMPTY
collection sets the global date to the YYYY-MM-DD conversion of the FIRST
newly-added file's last-modified timestamp (the result depends only on
the first file, not on any later one), and every ingestion into a
non-empty collection leaves the global date unchanged. -/
theorem C3_global_date_seeding :
    (∀ (s : AppState) (f : JsFile) (rest : List JsFile),
      s.renamedFiles = [] → s.useSameDateForAll = true →
      (handleFiles s (f :: rest)).dateString = toISODate f.lastModified) ∧
    (∀ (s : AppState) (files : List JsFile), s.renamedFiles ≠ [] →
      (handleFiles s files).dateString = s.dateString) := by
  constructor
  · intro s f rest hempty _htoggle
    simp [handleFiles, setRenamedFiles, hempty]
  · intro s files hne
    cases files with
    | nil => rfl
    | cons f rest =>
      have hlen : s.renamedFiles.length ≠ 0 := by
        simpa [List.length_eq_zero] using hne
      simp [handleFiles, setRenamedFiles, hlen]

/-- C3 witness: ingesting [fileA] into the empty initial state seeds the
global date from fileA's timestamp; ingesting [imgFile] into the resulting
non-empty collection leaves the global date unchanged. -/
theorem C3_global_date_seeding_witness :
    (handleFiles (initState "2024-09-01") [fileA]).dateString =
      toISODate fileA.lastModified ∧
    (handleFiles stateOne [imgFile]).dateString = stateOne.dateString :=
  ⟨C3_global_date_seeding.1 (initState "2024-09-01") fileA [] rfl rfl,
   C3_global_date_seeding.2 stateOne [imgFile] (by decide)⟩

/-- C4: toggling same-date-for-all from true to false resets every entry's
date to its own file's last-modified date; toggling from false to true
overwrites every entry's date with the current global date.  Both are one
synchronous sweep of the whole collection and change no other entry field
(the record update touches only `dateString`). -/
theorem C4_toggle_sweeps (s : AppState) :
    (s.useSameDateForAll = true →
      (handleDateToggleChange s false).useSameDateForAll = false ∧
      (handleDateToggleChange s false).renamedFiles = s.renamedFiles.map
        (fun rf => { rf with dateString := toISODate rf.originalFile.lastModified })) ∧
    (s.useSameDateForAll = false →
      (handleDateToggleChange s true).useSameDateForAll = true ∧
      (handleDateToggleChange s true).renamedFiles = s.renamedFiles.map
        (fun rf => { rf with dateString := s.dateString })) := by
  refine ⟨fun _ => ⟨rfl, ?_⟩, fun _ => ⟨rfl, ?_⟩⟩ <;>
    simp [handleDateToggleChange, setRenamedFiles]

/-- C4 witness: both toggle transitions evaluated on the concrete one-file
collection `stateOne` (global mode) and its per-file counterpart. -/
theorem C4_toggle_sweeps_witness :
    ((handleDateToggleChange stateOne false).useSameDateForAll = false ∧
      (handleDateToggleChange stateOne false).renamedFiles = stateOne.renamedFiles.map
        (fun rf => { rf with dateString := toISODate rf.originalFile.lastModified })) ∧
    ((handleDateToggleChange (handleDateToggleChange stateOne false) true).useSameDateForAll = true ∧
      (handleDateToggleChange (handleDateToggleChange stateOne false) true).renamedFiles =
        (handleDateToggleChange stateOne false).renamedFiles.map
          (fun rf => { rf with dateString := (handleDateToggleChange stateOne false).dateString })) :=
  ⟨(C4_toggle_sweeps stateOne).1 (by decide),
   (C4_toggle_sweeps (handleDateToggleChange stateOne false)).2 (by decide)⟩

/-- C8: a direct per-entry name or date edit overwrites exactly that one
field of that one entry: every other entry is untouched, the global cells
(rule, codename, global date, toggle) keep their values, the recompute
dependency tuple is unchanged (so the recompute effect does not fire), and
in particular a date edit leaves every entry's computedName as it was. -/
theorem C8_entry_edit_frame (s : AppState) (i : Nat) (v : String)
    (hi : i < s.renamedFiles.length) :
    ((handleIndividualNameChange s i v).renamedFiles.get? i =
        (s.renamedFiles.get? i).map (fun rf => { rf with newName := v }) ∧
      (∀ j, j ≠ i → (handleIndividualNameChange s i v).renamedFiles.get? j =
        s.renamedFiles.get? j) ∧
      recomputeDeps (handleIndividualNameChange s i v) = recomputeDeps s ∧
      (handleIndividualNameChange s i v).dateString = s.dateString ∧
      (handleIndividualNameChange s i v).useSameDateForAll = s.useSameDateForAll) ∧
    ((handleIndividualDateChange s i v).renamedFiles.get? i =
        (s.renamedFiles.get? i).map (fun rf => { rf with dateString := v }) ∧
      (∀ j, j ≠ i → (handleIndividualDateChange s i v).renamedFiles.get? j =
        s.renamedFiles.get? j) ∧
      (∀ j, ((handleIndividualDateChange s i v).renamedFiles.get? j).map
          (fun rf => rf.newName) = (s.renamedFiles.get? j).map (fun rf => rf.newName)) ∧
      recomputeDeps (handleIndividualDateChange s i v) = recomputeDeps s ∧
      (handleIndividualDateChange s i v).codename = s.codename ∧
      (handleIndividualDateChange s i v).format = s.format) := by
  have _ := hi
  constructor
  · refine ⟨?_, ?_, ?_, rfl, rfl⟩
    · exact updateAt_get?_eq i _ s.renamedFiles
    · intro j hj
      exact updateAt_get?_ne i _ s.renamedFiles j hj
    · simp [recomputeDeps, handleIndividualNameChange, setRenamedFiles, updateAt_length]
  · refine ⟨?_, ?_, ?_, ?_, rfl, rfl⟩
    · exact updateAt_get?_eq i _ s.renamedFiles
    · intro j hj
      exact updateAt_get?_ne i _ s.renamedFiles j hj
    · intro j
      by_cases hj : j = i
      · subst hj
        rw [show (handleIndividualDateChange s j v).renamedFiles =
          updateAt j (fun rf => { rf with dateString := v }) s.renamedFiles from rfl,
          updateAt_get?_eq]
        cases s.renamedFiles.get? j <;> rfl
      · rw [show (handleIndividualDateChange s i v).renamedFiles =
          updateAt i (fun rf => { rf with dateString := v }) s.renamedFiles from rfl,
          updateAt_get?_ne i _ s.renamedFiles j hj]
    · simp [recomputeDeps, handleIndividualDateChange, setRenamedFiles, updateAt_length]

/-- C8 witness: both edits applied at index 0 of the concrete one-file
collection `stateOne`; the date edit leaves the recompute dependency tuple
unchanged. -/
theorem C8_entry_edit_frame_witness :
    (handleIndividualNameChange stateOne 0 "edited").renamedFiles.get? 0 =
      (stateOne.renamedFiles.get? 0).map (fun rf => { rf with newName := "edited" }) ∧
    recomputeDeps (handleIndividualDateChange stateOne 0 "2020-05-05") =
      recomputeDeps stateOne :=
  ⟨(C8_entry_edit_frame stateOne 0 "edited" (by decide)).1.1,
   (C8_entry_edit_frame stateOne 0 "2020-05-05" (by decide)).2.2.2.2.1⟩

/-- C9: the recompute sweep is idempotent — running it twice in a row with
no intervening change yields the same computedName for every entry as
running it once (indeed the entry lists coincide). -/
theorem recomputeEntry_recomputeEntry (s t : AppState) (hf : t.format = s.format)
    (hc : t.codename = s.codename) (hd : t.dateString = s.dateString)
    (hu : t.useSameDateForAll = s.useSameDateForAll) (x : RenamedFile) :
    recomputeEntry t (recomputeEntry s x) = recomputeEntry s x := by
  simp [recomputeEntry, hf, hc, hd, hu]

theorem C9_recompute_idempotent (s : AppState) :
    (recomputeNames (recomputeNames s)).renamedFiles.map (fun rf => rf.newName) =
      (recomputeNames s).renamedFiles.map (fun rf => rf.newName) := by
  by_cases h : s.renamedFiles.length = 0
  · simp [recomputeNames, h]
  · have htr : (recomputeNames s).renamedFiles = s.renamedFiles.map (recomputeEntry s) := by
      rw [recomputeNames, if_neg h]
      rfl
    have hfmt : (recomputeNames s).format = s.format := by
      rw [recomputeNames, if_neg h]
      rfl
    have hc : (recomputeNames s).codename = s.codename := by
      rw [recomputeNames, if_neg h]
      rfl
    have hd : (recomputeNames s).dateString = s.dateString := by
      rw [recomputeNames, if_neg h]
      rfl
    have hu : (recomputeNames s).useSameDateForAll = s.useSameDateForAll := by
      rw [recomputeNames, if_neg h]
      rfl
    have hlen2 : ¬ (recomputeNames s).renamedFiles.length = 0 := by
      rw [htr]
      simpa using h
    conv_lhs => rw [recomputeNames, if_neg hlen2]
    rw [show ∀ t new, (setRenamedFiles t new).renamedFiles = new from fun t new => rfl, htr,
      List.map_map, List.map_map, List.map_map]
    apply List.map_congr_left
    intro x _
    simp only [Function.comp_apply]
    rw [recomputeEntry_recomputeEntry s (recomputeNames s) hfmt hc hd hu x]

theorem saveAllFrom_nil_of_all_blank (files : List RenamedFile) (k : Nat)
    (hall : ∀ e ∈ files, jsTrim e.newName = "") : saveAllFrom k files = [] := by
  induction files generalizing k with
  | nil => rfl
  | cons rf rest ih =>
    have hrf : jsTrim rf.newName = "" := hall rf (List.mem_cons_self rf rest)
    rw [saveAllFrom, if_pos hrf]
    exact ih (k + 1) (fun e he => hall e (List.mem_cons_of_mem rf he))

/-- C5: export visits entries in collection order; every entry whose
trimmed name is non-empty gets exactly one download action, scheduled at
delay index * 300 ms where the index is the entry's position among ALL
entries; nothing else is scheduled (so blank-trim entries are skipped
entirely) and the delays are strictly increasing, so no index gets two
actions.  With three entries whose middle entry trims to blank, exactly
two actions are scheduled, at offsets 0 ms and 600 ms; with no eligible
entry nothing is scheduled (and the call returns no state change — the
model's `handleSaveAll` reads the entries and produces only a schedule). -/
theorem C5_export_schedule :
    (∀ (files : List RenamedFile) (i : Nat) (e : RenamedFile),
      files.get? i = some e → jsTrim e.newName ≠ "" →
      (i * 300, jsTrim e.newName) ∈ handleSaveAll files) ∧
    (∀ (files : List RenamedFile) (p : Nat × String), p ∈ handleSaveAll files →
      ∃ i e, files.get? i = some e ∧ jsTrim e.newName ≠ "" ∧
        p.1 = i * 300 ∧ p.2 = jsTrim e.newName) ∧
    (∀ files : List RenamedFile,
      List.Pairwise (fun p q => p.1 < q.1) (handleSaveAll files)) ∧
    (∀ e1 e2 e3 : RenamedFile, jsTrim e1.newName ≠ "" → jsTrim e2.newName = "" →
      jsTrim e3.newName ≠ "" →
      handleSaveAll [e1, e2, e3] = [(0, jsTrim e1.newName), (600, jsTrim e3.newName)]) ∧
    (∀ files : List RenamedFile, (∀ e ∈ files, jsTrim e.newName = "") →
      handleSaveAll files = []) := by
  refine ⟨?_, ?_, ?_, ?_, ?_⟩
  · intro files i e hget hne
    simpa using saveAllFrom_mem_of_get? files 0 i e hget hne
  · intro files p hp
    obtain ⟨i, e, h1, h2, h3, h4⟩ := saveAllFrom_mem_spec files 0 p hp
    exact ⟨i, e, h1, h2, by simpa using h3, h4⟩
  · intro files
    exact saveAllFrom_delays_increasing files 0
  · intro e1 e2 e3 h1 h2 h3
    simp [handleSaveAll, saveAllFrom, h1, h2, h3]
  · intro files hall
    exact saveAllFrom_nil_of_all_blank files 0 hall

/-- C5 witness: over the concrete entries entryA, entryBlank, entryB the
export schedules exactly the two actions (0 ms, "a.pdf") and
(600 ms, "b.png"); over a single blank entry it schedules nothing; and
entryA's action is a member of the former schedule. -/
theorem C5_export_schedule_witness :
    handleSaveAll [entryA, entryBlank, entryB] =
      [(0, jsTrim entryA.newName), (600, jsTrim entryB.newName)] ∧
    handleSaveAll [entryBlank] = [] ∧
    (0 * 300, jsTrim entryA.newName) ∈ handleSaveAll [entryA, entryBlank, entryB] :=
  ⟨C5_export_schedule.2.2.2.1 entryA entryBlank entryB (by decide) (by decide) (by decide),
   C5_export_schedule.2.2.2.2 [entryBlank]
     (by intro e he; rw [List.mem_singleton] at he; subst he; decide),
   C5_export_schedule.1 [entryA, entryBlank, entryB] 0 entryA rfl (by decide)⟩

/-- C10: every scheduled download carries as filename the TRIMMED
computedName of some entry of the collection; for the concrete entry whose
stored name is " x " the scheduled filename is "x", which differs from the
stored computedName. -/
theorem C10_download_trimmed_name :
    (∀ (files : List RenamedFile) (p : Nat × String), p ∈ handleSaveAll files →
      ∃ i e, files.get? i = some e ∧ p.2 = jsTrim e.newName) ∧
    (handleSaveAll [entryWs] = [(0, "x")] ∧ entryWs.newName = " x " ∧
      ("x" : String) ≠ " x ") := by
  refine ⟨?_, by decide, by decide, by decide⟩
  intro files p hp
  obtain ⟨i, e, h1, _h2, _h3, h4⟩ := saveAllFrom_mem_spec files 0 p hp
  exact ⟨i, e, h1, h4⟩

/-- C10 witness: the general clause applied to the one-entry schedule of
`entryWs`, whose only action is (0, "x"). -/
theorem C10_download_trimmed_name_witness :
    ∃ i e, ([entryWs] : List RenamedFile).get? i = some e ∧
      ((0 : Nat), ("x" : String)).2 = jsTrim e.newName :=
  C10_download_trimmed_name.1 [entryWs] (0, "x")
    (by rw [C10_download_trimmed_name.2.1]; exact List.mem_cons_self _ _)

/-- C6 (code-bug evidence): after ingesting one image into an empty
collection and the recompute sweep that this ingestion triggers, the
collection still holds an entry whose preview handle is 0 while handle 0
has already been released — the cleanup effect keyed on `[renamedFiles]`
revoked the previous array's preview URLs although the new array's entries
carry the same URLs.  This contradicts the claim that no live entry ever
references a released handle. -/
theorem C6_preview_use_after_release :
    (∃ rf ∈ bugState.renamedFiles, rf.previewUrl = some 0) ∧
    (0 : Nat) ∈ bugState.released := by
  decide
